import Mathlib

/-!
# GBALib_Potentiometer: a shallow embedding of the potentiometer reader

The C++ class of `src/GBALib_Potentiometer.cpp` is embedded as functions that
pass the object state (`Pot`) and the state of the board (`Hw`) explicitly.

Modelling conventions.

* A value of the C++ type `int` is an integer (`Int`) in the range
  `[intMin bits, intMax bits]`, where `bits` is the width of `int` on the board
  (`Hw.intBits`: 16 on the AVR boards, 32 on the ARM boards).  The one `int`
  operation of the class whose result can leave that range, the addition
  `base + step` of `valueToCustomRange(min, max, step)`, wraps modulo
  `2 ^ bits` (`wrapInt`): signed overflow is undefined behaviour in C++, and
  the compiled code wraps.  The subtraction `mappedValue - mod` and the
  remainder stay within the magnitude of `mappedValue`.  The C++ operators `/`
  and `%` on integers truncate toward zero: they are `Int.tdiv` and `Int.tmod`.
* The Arduino function `map` is not part of the sources; its `long` arithmetic
  is modelled from the formula of the spec over the integers.  For a raw value
  in `[0, 1023]` its result lies between its last two arguments, so it is an
  `int` when they are.
* A C++ `float` is the rational number it denotes (`ℚ`).  The conversion
  `int → float` rounds to the nearest binary32 value (`intToFloat`); it is
  exact for every integer of magnitude below `2 ^ 24`.  The halving
  `float(step) / 2.0` is exact, and so is the sum of five readings of a 10-bit
  converter.  The division `sum / numReadings` is followed by a truncation to
  `int`, which the rounding of the quotient cannot change
  (`truncToInt_rounding_irrelevant`).
* The board is a script of converter readings plus a trace of the calls made
  to it (`pinMode`, `analogRead`, `delay`).
-/

namespace GBALibPotentiometer

/-! ## The board -/

/-- One call into the Arduino core that touches the board. -/
inductive HwEvent where
  /-- The call `pinMode(pin, INPUT)`. -/
  | pinModeInput (pin : Nat)
  /-- The call `analogRead(pin)`. -/
  | analogRead (pin : Nat)
  /-- The call `delay(ms)`. -/
  | delay (ms : Nat)
deriving DecidableEq

/-- State of the board: `adc pin k` is the value the converter returns on `pin`
at the `k`-th call of `analogRead` (counting from zero), `reads` counts the
calls of `analogRead` made so far, and `trace` lists all calls made so far,
oldest first; `intBits` is the width in bits of the C++ type `int` on the
board, which no call changes. -/
structure Hw where
  adc : Nat → Nat → Int
  reads : Nat
  trace : List HwEvent
  intBits : Nat

/-- A board with a 16-bit `int` that has not been used yet and whose converter
returns the values of `rs` in order, on every pin, and `0` once the list is
exhausted. -/
def Hw.script (rs : List Int) : Hw :=
  { adc := fun _ k => rs.getD k 0, reads := 0, trace := [], intBits := 16 }

/-- Modelled from the spec: `configureInputMode(channel)`, the Arduino call
`pinMode(pin, INPUT)`, which is not part of the sources. It marks the channel
as an input; the model records the call. -/
def pinModeInput (pin : Nat) (hw : Hw) : Hw :=
  { hw with trace := hw.trace ++ [HwEvent.pinModeInput pin] }

/-- Modelled from the spec: `readAnalog(channel)`, the Arduino call
`analogRead(pin)`, which is not part of the sources. It returns one raw sample
and consumes it from the script. -/
def analogRead (pin : Nat) (hw : Hw) : Int × Hw :=
  (hw.adc pin hw.reads,
   { hw with reads := hw.reads + 1, trace := hw.trace ++ [HwEvent.analogRead pin] })

/-- Modelled from the spec: `pause(durationUnits)`, the Arduino call
`delay(ms)`, which is not part of the sources. It blocks; the model records the
call. -/
def delay (ms : Nat) (hw : Hw) : Hw :=
  { hw with trace := hw.trace ++ [HwEvent.delay ms] }

/-- Modelled from the spec: the Arduino core function `map`, which is not part
of the sources. The spec gives it as
`(v - 0) * (max - min) / (1023 - 0) + min` with integer division that
truncates toward zero. -/
def map (x in_min in_max out_min out_max : Int) : Int :=
  ((x - in_min) * (out_max - out_min)).tdiv (in_max - in_min) + out_min

/-- The C++ conversion `int(x)` of a `float`: the fractional part is dropped,
so the value is rounded toward zero. -/
def truncToInt (x : ℚ) : Int :=
  if 0 ≤ x then ⌊x⌋ else ⌈x⌉

/-- The largest value of the C++ type `int` when it is `bits` wide. -/
def intMax (bits : Nat) : Int :=
  2 ^ bits / 2 - 1

/-- The smallest value of the C++ type `int` when it is `bits` wide. -/
def intMin (bits : Nat) : Int :=
  -(2 ^ bits / 2)

/-- The value an `int` of `bits` bits holds after an arithmetic operation whose
exact result is `x`: the result is reduced modulo `2 ^ bits` into the range of
`int`. -/
def wrapInt (bits : Nat) (x : Int) : Int :=
  (x - intMin bits) % 2 ^ bits + intMin bits

/-- The distance between neighbouring binary32 values at the magnitude `a`:
`1` below `2 ^ 24`, and doubled each time `a` doubles; `fuel` bounds the number
of halvings and `a` itself is always enough. -/
def floatUlp : Nat → Nat → Nat
  | 0, _ => 1
  | fuel + 1, a => if a < 2 ^ 24 then 1 else 2 * floatUlp fuel (a / 2)

/-- The multiple of `u` nearest to `a`, a tie going to the even multiple. -/
def roundToGrid (u a : Nat) : Nat :=
  if 2 * (a % u) > u ∨ (2 * (a % u) = u ∧ (a / u) % 2 = 1) then (a / u + 1) * u
  else (a / u) * u

/-- The binary32 value nearest to the natural number `a`, a tie going to the
even significand. That value is again a natural number. -/
def natToFloat (a : Nat) : Nat :=
  roundToGrid (floatUlp a a) a

/-- The C++ conversion of an `int` to `float`: the nearest binary32 value, a
tie going to the even significand. That value is again an integer. -/
def intToFloat (n : Int) : Int :=
  Int.sign n * (natToFloat n.natAbs : Int)

/-! ## The object -/

/-- The private fields of the class. -/
structure Pot where
  pin : Nat
  vMin : Int
  vMax : Int
  vStep : Int
deriving DecidableEq

/-- The constructor `Pot(uint8_t pin)`. -/
def Pot.init (pin : Nat) (hw : Hw) : Pot × Hw :=
  ({ pin := pin, vMin := 0, vMax := 1023, vStep := 1 }, pinModeInput pin hw)

/-- The constructor `Pot(uint8_t pin, int min, int max)`. -/
def Pot.initRange (pin : Nat) (min max : Int) (hw : Hw) : Pot × Hw :=
  ({ pin := pin, vMin := min, vMax := max, vStep := 1 }, pinModeInput pin hw)

/-- The constructor `Pot(uint8_t pin, int min, int max, int step)`. -/
def Pot.initRangeStep (pin : Nat) (min max step : Int) (hw : Hw) : Pot × Hw :=
  ({ pin := pin, vMin := min, vMax := max, vStep := step }, pinModeInput pin hw)

/-- The method `range(int min, int max)`. -/
def range (min max : Int) (p : Pot) (hw : Hw) : Pot × Hw :=
  ({ p with vMin := min, vMax := max }, hw)

/-- The method `step(int step)`. -/
def step (step : Int) (p : Pot) (hw : Hw) : Pot × Hw :=
  ({ p with vStep := step }, hw)

/-- The loop of `input()`: `n` more rounds of `sum += analogRead(pin); delay(1);`. -/
def inputLoop (pin : Nat) : Nat → ℚ → Hw → ℚ × Hw
  | 0, sum, hw => (sum, hw)
  | n + 1, sum, hw =>
    let r := analogRead pin hw
    inputLoop pin n (sum + (r.1 : ℚ)) (delay 1 r.2)

/-- The method `input()`. -/
def input (p : Pot) (hw : Hw) : Int × Hw :=
  let numReadings : Nat := 5
  let r := inputLoop p.pin numReadings 0 hw
  (truncToInt (r.1 / (numReadings : ℚ)), r.2)

/-- The method `voltage()`. -/
def voltage (p : Pot) (hw : Hw) : ℚ × Hw :=
  let r := input p hw
  ((r.1 : ℚ) * (5 / 1023), r.2)

/-- The method `valueToCustomRange(int min, int max)`. -/
def valueToCustomRange (p : Pot) (min max : Int) (hw : Hw) : Int × Hw :=
  let r := input p hw
  (map r.1 0 1023 min max, r.2)

/-- The method `valueToCustomRange(int min, int max, int step)`. -/
def valueToCustomRangeStep (p : Pot) (min max step : Int) (hw : Hw) : Int × Hw :=
  let r := valueToCustomRange p min max hw
  let mappedValue := r.1
  if step > 0 then
    let mod := mappedValue.tmod step
    let base := mappedValue - mod
    let halfStep : ℚ := (intToFloat step : ℚ) / 2
    let mappedValue1 :=
      if (intToFloat mod : ℚ) ≥ halfStep then wrapInt hw.intBits (base + step) else base
    let mappedValue2 := if mappedValue1 > max then max else mappedValue1
    (mappedValue2, r.2)
  else
    (mappedValue, r.2)

/-- The method `value()`. -/
def value (p : Pot) (hw : Hw) : Int × Hw :=
  valueToCustomRangeStep p p.vMin p.vMax p.vStep hw

/-- The next `n` values the converter will return on `pin`, in order. -/
def readings (pin : Nat) (hw : Hw) (n : Nat) : List Int :=
  (List.range n).map (fun k => hw.adc pin (hw.reads + k))

/-- The value of `mappedValue` before the clamp in
`valueToCustomRange(min, max, step)`, on a board whose `int` is `bits` wide, as
a function of the mapped value `m`: the `int` sum `base + step` when the
remainder, as a `float`, reaches half the step, else `base`. -/
def roundStep (bits : Nat) (m step : Int) : Int :=
  if intToFloat step ≤ 2 * intToFloat (m.tmod step) then
    wrapInt bits (m - m.tmod step + step)
  else m - m.tmod step

/-- The quantize-and-clamp block of `valueToCustomRange(min, max, step)`, on a
board whose `int` is `bits` wide, as a function of the mapped value `m`;
`valueToCustomRangeStep_fst` shows that the method applies exactly this to the
mapped value. -/
def quantize (bits : Nat) (m max step : Int) : Int :=
  if step > 0 then
    if roundStep bits m step > max then max else roundStep bits m step
  else m

/-- The value of `mappedValue` before the clamp when the `int` sum
`base + step` is formed without a bound, so that it cannot wrap: the decision
is the one the code takes on `float` values. -/
def roundFloat (m step : Int) : Int :=
  if intToFloat step ≤ 2 * intToFloat (m.tmod step) then m - m.tmod step + step
  else m - m.tmod step

/-- The quantized value as the spec words it, in exact arithmetic: `base + step`
when the remainder of the truncating division is at least half the step, else
`base`, with no bound on the sum. -/
def roundExact (m step : Int) : Int :=
  if step ≤ 2 * m.tmod step then m - m.tmod step + step else m - m.tmod step

/-! ## Supporting lemmas -/

/-- Truncating a quotient of an integer by a positive count is the integer
division that truncates toward zero. -/
theorem truncToInt_intCast_div (s : Int) (n : Nat) :
    truncToInt ((s : ℚ) / (n : ℚ)) = s.tdiv (n : Int) := by
  unfold truncToInt
  rcases Nat.eq_zero_or_pos n with hn | hn
  · subst hn
    simp
  have hnq : (0 : ℚ) < (n : ℚ) := by exact_mod_cast hn
  by_cases hs : 0 ≤ s
  · have hq : (0 : ℚ) ≤ (s : ℚ) / (n : ℚ) :=
      div_nonneg (by exact_mod_cast hs) hnq.le
    rw [if_pos hq, Rat.floor_intCast_div_natCast,
      Int.tdiv_eq_ediv hs (Int.ofNat_nonneg n)]
  · have hs0 : s < 0 := not_le.mp hs
    have hq : ¬ (0 : ℚ) ≤ (s : ℚ) / (n : ℚ) :=
      not_le.mpr (div_neg_of_neg_of_pos (by exact_mod_cast hs0) hnq)
    have hneg : (s : ℚ) / (n : ℚ) = -(((-s : Int) : ℚ) / (n : ℚ)) := by
      push_cast
      ring
    rw [if_neg hq, hneg, Int.ceil_neg, Rat.floor_intCast_div_natCast,
      ← Int.tdiv_eq_ediv (by omega) (Int.ofNat_nonneg n), Int.neg_tdiv]
    simp

/-- The rounding of the float division in `input()` cannot change its result:
for any rounding `fl` that is monotone and leaves the multiples of `1 / 8` of
magnitude up to `2 ^ 20` unchanged (as rounding to binary32 does), truncating
the rounded quotient of a sum of five 10-bit readings by five gives the same
integer as truncating the exact quotient. -/
theorem truncToInt_rounding_irrelevant (fl : ℚ → ℚ) (hmono : Monotone fl)
    (hfix : ∀ k : Int, |k| ≤ 2 ^ 23 → fl ((k : ℚ) / 8) = (k : ℚ) / 8)
    (s : Int) (h0 : 0 ≤ s) (h1 : s ≤ 5115) :
    truncToInt (fl ((s : ℚ) / 5)) = truncToInt ((s : ℚ) / 5) := by
  have hx : truncToInt ((s : ℚ) / 5) = s / 5 := by
    have h := truncToInt_intCast_div s 5
    rw [Int.tdiv_eq_ediv h0 (by decide)] at h
    simpa using h
  rw [hx]
  have hlo : ((s / 5 : Int) : ℚ) ≤ (s : ℚ) / 5 := by
    rw [le_div_iff₀ (by norm_num)]
    have : s / 5 * 5 ≤ s := Int.ediv_mul_le s (by decide)
    exact_mod_cast this
  have hhi : (s : ℚ) / 5 ≤ (((8 * (s / 5) + 7 : Int)) : ℚ) / 8 := by
    rw [div_le_div_iff₀ (by norm_num) (by norm_num)]
    have : s * 8 ≤ (8 * (s / 5) + 7) * 5 := by omega
    exact_mod_cast this
  have e1 : fl ((s / 5 : Int) : ℚ) = ((s / 5 : Int) : ℚ) := by
    have h := hfix (8 * (s / 5)) (by rw [abs_le]; constructor <;> omega)
    have e : (((8 * (s / 5) : Int)) : ℚ) / 8 = ((s / 5 : Int) : ℚ) := by
      push_cast
      ring
    rwa [e] at h
  have e2 := hfix (8 * (s / 5) + 7) (by rw [abs_le]; constructor <;> omega)
  have l1 : ((s / 5 : Int) : ℚ) ≤ fl ((s : ℚ) / 5) := e1 ▸ hmono hlo
  have l2 : fl ((s : ℚ) / 5) ≤ (((8 * (s / 5) + 7 : Int)) : ℚ) / 8 := e2 ▸ hmono hhi
  have l3 : fl ((s : ℚ) / 5) < ((s / 5 : Int) : ℚ) + 1 := by
    refine lt_of_le_of_lt l2 ?_
    push_cast
    linarith
  have hnn : (0 : ℚ) ≤ fl ((s : ℚ) / 5) :=
    le_trans (by exact_mod_cast (Int.ediv_nonneg h0 (by decide))) l1
  unfold truncToInt
  rw [if_pos hnn, Int.floor_eq_iff]
  exact ⟨l1, l3⟩

/-- The sum and the board after `n` rounds of the loop of `input()`. -/
theorem inputLoop_eq (pin : Nat) (n : Nat) (sum : ℚ) (hw : Hw) :
    inputLoop pin n sum hw =
      (sum + (((List.range n).map (fun k => hw.adc pin (hw.reads + k))).sum : Int),
       { hw with
         reads := hw.reads + n
         trace := hw.trace ++ (List.range n).flatMap
           (fun _ => [HwEvent.analogRead pin, HwEvent.delay 1]) }) := by
  induction n generalizing sum hw with
  | zero => simp [inputLoop]
  | succ n ih =>
    rw [inputLoop, ih]
    simp only [analogRead, delay, List.range_succ_eq_map, List.map_cons, List.sum_cons,
      List.map_map, List.flatMap_cons, List.flatMap_map]
    refine Prod.ext ?_ ?_
    · simp only [Function.comp_def, Nat.add_zero, Int.cast_add]
      have : ∀ k, hw.reads + 1 + k = hw.reads + (k + 1) := fun k => by omega
      simp only [this, Nat.succ_eq_add_one]
      ring
    · simp [Function.comp_def, Nat.add_assoc, Nat.add_comm 1]

/-- The value of `input()` is the sum of the next five readings, divided by
five with truncation toward zero. -/
theorem input_fst (p : Pot) (hw : Hw) :
    (input p hw).1 = (readings p.pin hw 5).sum.tdiv 5 := by
  unfold input
  simp only [inputLoop_eq, zero_add]
  exact truncToInt_intCast_div _ 5

/-- The board after `input()`: five readings are consumed, and five pairs of
`analogRead` and `delay(1)` are appended to the trace. -/
theorem input_snd (p : Pot) (hw : Hw) :
    (input p hw).2 =
      { hw with
        reads := hw.reads + 5
        trace := hw.trace ++ (List.range 5).flatMap
          (fun _ => [HwEvent.analogRead p.pin, HwEvent.delay 1]) } := by
  unfold input
  simp only [inputLoop_eq]

/-- With five readings in `[0, 1023]`, `input()` is in `[0, 1023]`. -/
theorem input_fst_bounds (p : Pot) (hw : Hw)
    (hrange : ∀ r ∈ readings p.pin hw 5, 0 ≤ r ∧ r ≤ 1023) :
    0 ≤ (input p hw).1 ∧ (input p hw).1 ≤ 1023 := by
  rw [input_fst]
  have h : ∀ k, k < 5 → 0 ≤ hw.adc p.pin (hw.reads + k) ∧ hw.adc p.pin (hw.reads + k) ≤ 1023 :=
    fun k hk => hrange _ (List.mem_map.mpr ⟨k, List.mem_range.mpr hk, rfl⟩)
  have h0 := h 0 (by decide)
  have h1 := h 1 (by decide)
  have h2 := h 2 (by decide)
  have h3 := h 3 (by decide)
  have h4 := h 4 (by decide)
  have hs : (readings p.pin hw 5).sum = hw.adc p.pin (hw.reads + 0) + (hw.adc p.pin (hw.reads + 1)
      + (hw.adc p.pin (hw.reads + 2) + (hw.adc p.pin (hw.reads + 3)
      + (hw.adc p.pin (hw.reads + 4) + 0)))) := rfl
  rw [hs, Int.tdiv_eq_ediv (by omega) (by decide)]
  omega

/-- The exact comparison with the half step, in integers. -/
theorem ge_halfStep_iff (a s : Int) : ((a : ℚ) ≥ (s : ℚ) / 2) ↔ s ≤ 2 * a := by
  rw [ge_iff_le, div_le_iff₀ (by norm_num : (0 : ℚ) < 2)]
  constructor
  · intro h
    have h2 : s ≤ a * 2 := by exact_mod_cast h
    omega
  · intro h
    have h2 : s ≤ a * 2 := by omega
    exact_mod_cast h2

/-- The value of the two-argument method, in terms of the raw value. -/
theorem valueToCustomRange_fst (p : Pot) (min max : Int) (hw : Hw) :
    (valueToCustomRange p min max hw).1 = ((input p hw).1 * (max - min)).tdiv 1023 + min := by
  simp [valueToCustomRange, map]

/-- The board after the two-argument method is the board after `input()`. -/
theorem valueToCustomRange_snd (p : Pot) (min max : Int) (hw : Hw) :
    (valueToCustomRange p min max hw).2 = (input p hw).2 := rfl

/-- The smallest `int` is not positive. -/
theorem intMin_nonpos (bits : Nat) : intMin bits ≤ 0 := by
  unfold intMin
  have h : (0 : Int) ≤ 2 ^ bits / 2 :=
    Int.ediv_nonneg (pow_nonneg (by decide) bits) (by decide)
  omega

/-- A value in the range of `int` is not changed by the wrap. -/
theorem wrapInt_of_fits (bits : Nat) (x : Int) (h0 : intMin bits ≤ x)
    (h1 : x ≤ intMax bits) : wrapInt bits x = x := by
  unfold wrapInt
  unfold intMin at h0 ⊢
  unfold intMax at h1
  cases bits with
  | zero =>
    have e : (2 : Int) ^ 0 / 2 = 0 := by decide
    rw [e] at h0 h1
    omega
  | succ k =>
    have hk : (0 : Int) < 2 ^ k := pow_pos (by decide) k
    have hp : (2 : Int) ^ (k + 1) = 2 * 2 ^ k := by
      rw [pow_succ]
      ring
    have hh : (2 : Int) ^ (k + 1) / 2 = 2 ^ k := by
      rw [hp, Int.mul_ediv_cancel_left _ (by decide)]
    rw [hh] at h0 h1 ⊢
    rw [hp, Int.emod_eq_of_lt (by omega) (by omega)]
    omega

/-- With enough fuel the spacing is a power of two `2 ^ k` such that `a` is below
`2 ^ 24` times it and, unless `k = 0`, at least `2 ^ 23` times it. -/
theorem floatUlp_spec (fuel a : Nat) (h : a ≤ fuel) :
    ∃ k, floatUlp fuel a = 2 ^ k ∧ a < 2 ^ 24 * 2 ^ k ∧ (k = 0 ∨ 2 ^ 23 * 2 ^ k ≤ a) := by
  induction fuel generalizing a with
  | zero =>
    refine ⟨0, rfl, ?_, Or.inl rfl⟩
    have : a = 0 := by omega
    subst this
    decide
  | succ f ih =>
    by_cases hs : a < 2 ^ 24
    · refine ⟨0, ?_, by simpa using hs, Or.inl rfl⟩
      rw [floatUlp, if_pos hs, pow_zero]
    · obtain ⟨k, hk, hlt, hge⟩ := ih (a / 2) (by omega)
      refine ⟨k + 1, ?_, ?_, Or.inr ?_⟩
      · rw [floatUlp, if_neg hs, hk, pow_succ, Nat.mul_comm]
      · rw [pow_succ]
        omega
      · rw [pow_succ]
        rcases hge with h0 | h1
        · subst h0
          simp only [pow_zero, Nat.mul_one] at *
          omega
        · omega

/-- Rounding to the multiples of `1` changes nothing. -/
theorem roundToGrid_one (a : Nat) : roundToGrid 1 a = a := by
  unfold roundToGrid
  rw [Nat.mod_one, Nat.div_one]
  simp

/-- The rounded value is one of the two multiples of `u` around `a`. -/
theorem roundToGrid_bounds (u a : Nat) :
    (a / u) * u ≤ roundToGrid u a ∧ roundToGrid u a ≤ (a / u + 1) * u := by
  unfold roundToGrid
  have h : (a / u) * u ≤ (a / u + 1) * u := Nat.mul_le_mul_right u (Nat.le_succ _)
  split_ifs
  · exact ⟨h, le_rfl⟩
  · exact ⟨le_rfl, h⟩

/-- Below `2 ^ 24` neighbouring binary32 values are `1` apart. -/
theorem floatUlp_of_small (fuel a : Nat) (h : a < 2 ^ 24) : floatUlp fuel a = 1 := by
  cases fuel with
  | zero => rfl
  | succ f => rw [floatUlp, if_pos h]

/-- A natural number below `2 ^ 24` is a binary32 value. -/
theorem natToFloat_of_small (a : Nat) (h : a < 2 ^ 24) : natToFloat a = a := by
  unfold natToFloat
  rw [floatUlp_of_small _ _ h, roundToGrid_one]

/-- The binary32 value nearest to a positive number is positive. -/
theorem natToFloat_pos (a : Nat) (h : 0 < a) : 0 < natToFloat a := by
  obtain ⟨k, hk, _, hge⟩ := floatUlp_spec a a le_rfl
  unfold natToFloat
  rw [hk]
  have hu : 0 < 2 ^ k := Nat.pow_pos (by decide)
  have hle : 2 ^ k ≤ a := by
    rcases hge with h0 | h1
    · subst h0
      simpa using h
    · omega
  have hq : 0 < a / 2 ^ k := Nat.div_pos hle hu
  exact lt_of_lt_of_le (Nat.mul_pos hq hu) (roundToGrid_bounds _ a).1

/-- An integer of magnitude below `2 ^ 24` is converted to `float` exactly. -/
theorem intToFloat_of_small (n : Int) (h : n.natAbs < 2 ^ 24) : intToFloat n = n := by
  unfold intToFloat
  rw [natToFloat_of_small _ h]
  exact Int.sign_mul_natAbs n

/-- A positive `int` is converted to a positive `float`. -/
theorem intToFloat_of_pos (n : Int) (h : 0 < n) :
    intToFloat n = (natToFloat n.natAbs : Int) ∧ 0 < intToFloat n := by
  have e : intToFloat n = (natToFloat n.natAbs : Int) := by
    unfold intToFloat
    rw [Int.sign_eq_one_of_pos h, Int.one_mul]
  refine ⟨e, ?_⟩
  rw [e]
  exact_mod_cast natToFloat_pos n.natAbs (by omega)

/-- An `int` that is not positive is converted to a `float` that is not positive. -/
theorem intToFloat_of_nonpos (n : Int) (h : n ≤ 0) : intToFloat n ≤ 0 := by
  unfold intToFloat
  have h1 : Int.sign n ≤ 0 := by
    rcases lt_or_eq_of_le h with hn | hn
    · rw [Int.sign_eq_neg_one_of_neg hn]
      decide
    · rw [hn]
      decide
  have h2 : (0 : Int) ≤ (natToFloat n.natAbs : Int) := Int.ofNat_nonneg _
  exact Int.mul_nonpos_of_nonpos_of_nonneg h1 h2

/-- The remainder of the truncating division of a value `m ≤ 0`. -/
theorem tmod_of_nonpos (m step : Int) (hstep : step > 0) (hm : m ≤ 0) :
    m.tmod step = -((-m) % step) ∧ m.tdiv step = -((-m) / step) := by
  have hq : m.tdiv step = -((-m) / step) := by
    have h := Int.neg_tdiv (-m) step
    rw [Int.neg_neg] at h
    rw [h, Int.tdiv_eq_ediv (by omega) hstep.le]
  have hd : step * ((-m) / step) + (-m) % step = -m := Int.ediv_add_emod (-m) step
  refine ⟨?_, hq⟩
  rw [Int.tmod_def, hq]
  linear_combination hd

/-- The remainder of the truncating division by a step `> 0` is smaller than
the step in magnitude, and a positive remainder leaves a base `≥ 0`. -/
theorem tmod_bounds (m step : Int) (hstep : step > 0) :
    -step < m.tmod step ∧ m.tmod step < step ∧ (0 < m.tmod step → 0 ≤ m - m.tmod step) := by
  rcases Int.le_total 0 m with h | h
  · have hr : m.tmod step = m % step := Int.tmod_eq_emod h hstep.le
    have h0 : 0 ≤ m % step := Int.emod_nonneg m (ne_of_gt hstep)
    have h1 : m % step < step := Int.emod_lt_of_pos m hstep
    have hd : step * (m / step) + m % step = m := Int.ediv_add_emod m step
    have hq : 0 ≤ step * (m / step) := Int.mul_nonneg hstep.le (Int.ediv_nonneg h hstep.le)
    rw [hr]
    exact ⟨by omega, h1, fun _ => by omega⟩
  · have hr := (tmod_of_nonpos m step hstep h).1
    have h0 : 0 ≤ (-m) % step := Int.emod_nonneg (-m) (ne_of_gt hstep)
    have h1 : (-m) % step < step := Int.emod_lt_of_pos (-m) hstep
    rw [hr]
    exact ⟨by omega, by omega, fun hpos => by omega⟩

/-- The three-argument method applies `quantize` to the mapped value. -/
theorem valueToCustomRangeStep_fst (p : Pot) (min max step : Int) (hw : Hw) :
    (valueToCustomRangeStep p min max step hw).1 =
      quantize hw.intBits (valueToCustomRange p min max hw).1 max step := by
  unfold valueToCustomRangeStep quantize roundStep
  by_cases hs : step > 0
  · simp only [if_pos hs, ge_halfStep_iff]
  · simp only [if_neg hs]

/-- The board after the three-argument method is the board after `input()`. -/
theorem valueToCustomRangeStep_snd (p : Pot) (min max step : Int) (hw : Hw) :
    (valueToCustomRangeStep p min max step hw).2 = (input p hw).2 := by
  unfold valueToCustomRangeStep
  by_cases hs : step > 0
  · simp only [if_pos hs, valueToCustomRange_snd]
  · simp only [if_neg hs, valueToCustomRange_snd]

/-- With `min ≤ max` and a raw value in `[0, 1023]`, the mapped value is in
`[min, max]`. -/
theorem map_bounds (v min max : Int) (hv0 : 0 ≤ v) (hv1 : v ≤ 1023) (h : min ≤ max) :
    min ≤ (v * (max - min)).tdiv 1023 + min ∧ (v * (max - min)).tdiv 1023 + min ≤ max := by
  have hd : 0 ≤ max - min := by omega
  have hp : 0 ≤ v * (max - min) := Int.mul_nonneg hv0 hd
  rw [Int.tdiv_eq_ediv hp (by decide)]
  have hle : v * (max - min) ≤ 1023 * (max - min) := Int.mul_le_mul_of_nonneg_right hv1 hd
  have h1 : 0 ≤ v * (max - min) / 1023 := Int.ediv_nonneg hp (by decide)
  have h2 : v * (max - min) / 1023 ≤ max - min := by
    have := Int.ediv_le_ediv (by decide : (0 : Int) < 1023) hle
    rwa [Int.mul_ediv_cancel_left _ (by decide : (1023 : Int) ≠ 0)] at this
  omega

/-- With `max < min` and a raw value in `[0, 1023]`, the mapped value is in
`[max, min]`. -/
theorem map_bounds_inverted (v min max : Int) (hv0 : 0 ≤ v) (hv1 : v ≤ 1023) (h : max < min) :
    max ≤ (v * (max - min)).tdiv 1023 + min ∧ (v * (max - min)).tdiv 1023 + min ≤ min := by
  have hd : 0 ≤ min - max := by omega
  have hp : 0 ≤ v * (min - max) := Int.mul_nonneg hv0 hd
  have e : v * (max - min) = -(v * (min - max)) := by ring
  rw [e, Int.neg_tdiv, Int.tdiv_eq_ediv hp (by decide)]
  have hle : v * (min - max) ≤ 1023 * (min - max) := Int.mul_le_mul_of_nonneg_right hv1 hd
  have h1 : 0 ≤ v * (min - max) / 1023 := Int.ediv_nonneg hp (by decide)
  have h2 : v * (min - max) / 1023 ≤ min - max := by
    have := Int.ediv_le_ediv (by decide : (0 : Int) < 1023) hle
    rwa [Int.mul_ediv_cancel_left _ (by decide : (1023 : Int) ≠ 0)] at this
  omega

/-- With step `1` the quantize-and-clamp block only clamps. -/
theorem quantize_one (bits : Nat) (m max : Int) :
    quantize bits m max 1 = if m > max then max else m := by
  unfold quantize roundStep
  have h : m.tmod 1 = 0 := Int.tmod_one m
  have e0 : intToFloat 0 = 0 := by decide
  have e1 : intToFloat 1 = 1 := by decide
  simp [h, e0, e1]

/-- The base of the quantization is the step times the truncated quotient. -/
theorem sub_tmod_eq (m step : Int) : m - m.tmod step = step * m.tdiv step := by
  have h := Int.tmod_def m step
  omega

/-- The value before the clamp, formed without a bound, is a multiple of the
step. -/
theorem roundFloat_dvd (m step : Int) : step ∣ roundFloat m step := by
  unfold roundFloat
  rw [sub_tmod_eq]
  split_ifs
  · exact Int.dvd_add (Int.dvd_mul_right _ _) (Int.dvd_refl _)
  · exact Int.dvd_mul_right _ _

/-- The value the code computes before the clamp is the one formed without a
bound when that one does not exceed the largest `int`, so that the sum
`base + step` does not wrap. -/
theorem roundStep_eq_roundFloat (bits : Nat) (m step : Int) (hstep : step > 0)
    (hfit : roundFloat m step ≤ intMax bits) :
    roundStep bits m step = roundFloat m step := by
  unfold roundFloat at hfit ⊢
  unfold roundStep
  by_cases hc : intToFloat step ≤ 2 * intToFloat (m.tmod step)
  · simp only [if_pos hc] at hfit ⊢
    have hpos : 0 < m.tmod step := by
      by_contra hn
      have h1 := intToFloat_of_nonpos (m.tmod step) (by omega)
      have h2 := (intToFloat_of_pos step hstep).2
      omega
    have hb := (tmod_bounds m step hstep).2.2 hpos
    have hmin := intMin_nonpos bits
    exact wrapInt_of_fits bits _ (by omega) hfit
  · simp only [if_neg hc]

/-- For a step below `2 ^ 24` the conversions to `float` are exact, and the
value before the clamp, formed without a bound, is the exact quantized value. -/
theorem roundFloat_eq_roundExact (m step : Int) (hstep : step > 0) (hfloat : step < 2 ^ 24) :
    roundFloat m step = roundExact m step := by
  have hb := tmod_bounds m step hstep
  have e1 : intToFloat step = step := intToFloat_of_small step (by omega)
  have e2 : intToFloat (m.tmod step) = m.tmod step := intToFloat_of_small _ (by omega)
  unfold roundFloat roundExact
  rw [e1, e2]

/-- When the sum `base + step` does not wrap, the quantize-and-clamp block
clamps the value formed without a bound. -/
theorem quantize_eq_float (bits : Nat) (m max step : Int) (hstep : step > 0)
    (hfit : roundFloat m step ≤ intMax bits) :
    quantize bits m max step =
      if roundFloat m step > max then max else roundFloat m step := by
  unfold quantize
  rw [if_pos hstep, roundStep_eq_roundFloat bits m step hstep hfit]

/-- For a step below `2 ^ 24`, when the exact quantized value does not exceed
the largest `int`, the quantize-and-clamp block clamps the exact quantized
value. -/
theorem quantize_eq_exact (bits : Nat) (m max step : Int) (hstep : step > 0)
    (hfloat : step < 2 ^ 24) (hfit : roundExact m step ≤ intMax bits) :
    quantize bits m max step =
      if roundExact m step > max then max else roundExact m step := by
  rw [← roundFloat_eq_roundExact m step hstep hfloat] at hfit ⊢
  exact quantize_eq_float bits m max step hstep hfit

/-- For a mapped value `m ≥ 0`, a step below `2 ^ 24` and a maximum that is an
`int`, when the quantized value does not exceed the maximum, the
quantize-and-clamp block returns the multiple of the step that is nearest to
`m`. -/
theorem quantize_nearest_of_nonneg (bits : Nat) (m max step : Int) (hstep : step > 0)
    (hfloat : step < 2 ^ 24) (hm : 0 ≤ m) (hmax : max ≤ intMax bits)
    (hq : roundExact m step ≤ max) :
    step ∣ quantize bits m max step ∧ 2 * |quantize bits m max step - m| ≤ step := by
  rw [quantize_eq_exact bits m max step hstep hfloat (by omega), if_neg (not_lt.mpr hq)]
  refine ⟨roundFloat_eq_roundExact m step hstep hfloat ▸ roundFloat_dvd m step, ?_⟩
  have hr : m.tmod step = m % step := Int.tmod_eq_emod hm hstep.le
  have h0 : 0 ≤ m % step := Int.emod_nonneg m (ne_of_gt hstep)
  have h1 : m % step < step := Int.emod_lt_of_pos m hstep
  unfold roundExact
  rw [hr]
  by_cases hc : step ≤ 2 * (m % step)
  · rw [if_pos hc]
    have e : m - m % step + step - m = step - m % step := by ring
    rw [e, abs_of_nonneg (by omega)]
    omega
  · rw [if_neg hc]
    have e : m - m % step - m = -(m % step) := by ring
    rw [e, abs_neg, abs_of_nonneg h0]
    omega

/-- C1: for five raw readings `r0 … r4`, each in `[0, 1023]`, `input()` returns
the truncated integer mean `(r0 + r1 + r2 + r3 + r4) div 5`: five times the
result is at most the sum and misses it by less than five, so the mean is
never rounded up. -/
theorem input_truncated_mean (p : Pot) (hw : Hw) (r0 r1 r2 r3 r4 : Int)
    (hread : readings p.pin hw 5 = [r0, r1, r2, r3, r4])
    (hrange : ∀ r ∈ [r0, r1, r2, r3, r4], 0 ≤ r ∧ r ≤ 1023) :
    (input p hw).1 = (r0 + r1 + r2 + r3 + r4) / 5 ∧
    5 * (input p hw).1 ≤ r0 + r1 + r2 + r3 + r4 ∧
    r0 + r1 + r2 + r3 + r4 < 5 * (input p hw).1 + 5 := by
  have h0 := hrange r0 (by simp)
  have h1 := hrange r1 (by simp)
  have h2 := hrange r2 (by simp)
  have h3 := hrange r3 (by simp)
  have h4 := hrange r4 (by simp)
  have hs : (readings p.pin hw 5).sum = r0 + r1 + r2 + r3 + r4 := by
    rw [hread]
    simp only [List.sum_cons, List.sum_nil]
    ring
  rw [input_fst, hs, Int.tdiv_eq_ediv (by omega) (by decide)]
  omega

/-- C1, at the readings of the spec: `[100, 100, 100, 100, 100]` gives `100`,
`[0, 1023, 0, 1023, 0]` gives `409`, and `[1, 1, 1, 0, 0]`, whose rounded mean
is `1`, gives `0`. -/
theorem input_truncated_mean_witness :
    readings 3 (Hw.script [0, 1023, 0, 1023, 0]) 5 = [0, 1023, 0, 1023, 0] ∧
    (∀ r ∈ [(0 : Int), 1023, 0, 1023, 0], 0 ≤ r ∧ r ≤ 1023) ∧
    (input ⟨3, 0, 1023, 1⟩ (Hw.script [0, 1023, 0, 1023, 0])).1 = 409 ∧
    (input ⟨3, 0, 1023, 1⟩ (Hw.script [100, 100, 100, 100, 100])).1 = 100 ∧
    (input ⟨3, 0, 1023, 1⟩ (Hw.script [1, 1, 1, 0, 0])).1 = 0 :=
  ⟨by decide, by decide,
   (input_truncated_mean ⟨3, 0, 1023, 1⟩ (Hw.script [0, 1023, 0, 1023, 0])
      0 1023 0 1023 0 (by decide) (by decide)).1.trans (by decide),
   (input_truncated_mean ⟨3, 0, 1023, 1⟩ (Hw.script [100, 100, 100, 100, 100])
      100 100 100 100 100 (by decide) (by decide)).1.trans (by decide),
   (input_truncated_mean ⟨3, 0, 1023, 1⟩ (Hw.script [1, 1, 1, 0, 0])
      1 1 1 0 0 (by decide) (by decide)).1.trans (by decide)⟩

/-- C2: for every raw value `v` returned by `input()` and every pair of
integers `lo`, `hi` (also `lo > hi`), `valueToCustomRange(lo, hi)` returns
exactly `(v * (hi - lo)) / 1023 + lo`, the division truncating toward zero. -/
theorem valueToCustomRange_formula (p : Pot) (hw : Hw) (lo hi v : Int)
    (hv : (input p hw).1 = v) :
    (valueToCustomRange p lo hi hw).1 = (v * (hi - lo)).tdiv 1023 + lo := by
  rw [valueToCustomRange_fst, hv]

/-- C2, at the values of the spec: with `lo = 0`, `hi = 100` the raw values
`0`, `1023` and `512` give `0`, `100` and `50`; with `lo = 100`, `hi = 0` the
raw value `512` gives `50`, the negative quotient `-51200 / 1023` being
truncated to `-50` and not floored to `-51`. -/
theorem valueToCustomRange_formula_witness :
    (input ⟨3, 0, 1023, 1⟩ (Hw.script [512, 512, 512, 512, 512])).1 = 512 ∧
    (valueToCustomRange ⟨3, 0, 1023, 1⟩ 0 100 (Hw.script [512, 512, 512, 512, 512])).1 = 50 ∧
    (valueToCustomRange ⟨3, 0, 1023, 1⟩ 0 100 (Hw.script [0, 0, 0, 0, 0])).1 = 0 ∧
    (valueToCustomRange ⟨3, 0, 1023, 1⟩ 0 100 (Hw.script [1023, 1023, 1023, 1023, 1023])).1
      = 100 ∧
    (valueToCustomRange ⟨3, 0, 1023, 1⟩ 100 0 (Hw.script [512, 512, 512, 512, 512])).1 = 50 :=
  ⟨by rw [input_fst]; decide,
   (valueToCustomRange_formula ⟨3, 0, 1023, 1⟩ (Hw.script [512, 512, 512, 512, 512])
      0 100 512 (by rw [input_fst]; decide)).trans (by decide),
   (valueToCustomRange_formula ⟨3, 0, 1023, 1⟩ (Hw.script [0, 0, 0, 0, 0])
      0 100 0 (by rw [input_fst]; decide)).trans (by decide),
   (valueToCustomRange_formula ⟨3, 0, 1023, 1⟩ (Hw.script [1023, 1023, 1023, 1023, 1023])
      0 100 1023 (by rw [input_fst]; decide)).trans (by decide),
   (valueToCustomRange_formula ⟨3, 0, 1023, 1⟩ (Hw.script [512, 512, 512, 512, 512])
      100 0 512 (by rw [input_fst]; decide)).trans (by decide)⟩

/-- C4, the code at a negative mapped value: with range `[-10, 10]`, step `10`
and five readings of `154` the mapped value is `-7` and the method returns
`0`, which is `7` away from it, although the multiple `-10` of the step is
only `3` away and does not exceed the maximum. -/
theorem valueToCustomRangeStep_negative_not_nearest :
    (∀ r ∈ readings 3 (Hw.script [154, 154, 154, 154, 154]) 5, 0 ≤ r ∧ r ≤ 1023) ∧
    (valueToCustomRange ⟨3, 0, 1023, 1⟩ (-10) 10 (Hw.script [154, 154, 154, 154, 154])).1
      = -7 ∧
    (valueToCustomRangeStep ⟨3, 0, 1023, 1⟩ (-10) 10 10
      (Hw.script [154, 154, 154, 154, 154])).1 = 0 ∧
    ¬ (2 * |(valueToCustomRangeStep ⟨3, 0, 1023, 1⟩ (-10) 10 10
          (Hw.script [154, 154, 154, 154, 154])).1
        - (valueToCustomRange ⟨3, 0, 1023, 1⟩ (-10) 10
          (Hw.script [154, 154, 154, 154, 154])).1| ≤ 10) ∧
    ((10 : Int) ∣ -10 ∧ 2 * |(-10 : Int) - (-7)| ≤ 10 ∧ (-10 : Int) ≤ 10) := by
  have hm : (valueToCustomRange ⟨3, 0, 1023, 1⟩ (-10) 10
      (Hw.script [154, 154, 154, 154, 154])).1 = -7 := by
    rw [valueToCustomRange_fst, input_fst]
    decide
  have hr : (valueToCustomRangeStep ⟨3, 0, 1023, 1⟩ (-10) 10 10
      (Hw.script [154, 154, 154, 154, 154])).1 = 0 := by
    rw [valueToCustomRangeStep_fst, hm]
    decide
  refine ⟨by decide, hm, hr, ?_, by decide⟩
  rw [hm, hr]
  decide

/-- C5, the code at a value below the minimum: with range `[3, 100]`, step
`10` and five readings of `0` the mapped value is `3` and the method returns
`0`, which is below the minimum `3` of the custom range. -/
theorem valueToCustomRangeStep_below_min :
    (∀ r ∈ readings 3 (Hw.script [0, 0, 0, 0, 0]) 5, 0 ≤ r ∧ r ≤ 1023) ∧
    ((3 : Int) ≤ 100) ∧
    (valueToCustomRange ⟨3, 0, 1023, 1⟩ 3 100 (Hw.script [0, 0, 0, 0, 0])).1 = 3 ∧
    (valueToCustomRangeStep ⟨3, 0, 1023, 1⟩ 3 100 10 (Hw.script [0, 0, 0, 0, 0])).1 = 0 ∧
    ¬ (3 ≤ (valueToCustomRangeStep ⟨3, 0, 1023, 1⟩ 3 100 10 (Hw.script [0, 0, 0, 0, 0])).1) := by
  have hm : (valueToCustomRange ⟨3, 0, 1023, 1⟩ 3 100 (Hw.script [0, 0, 0, 0, 0])).1 = 3 := by
    rw [valueToCustomRange_fst, input_fst]
    decide
  have hr : (valueToCustomRangeStep ⟨3, 0, 1023, 1⟩ 3 100 10
      (Hw.script [0, 0, 0, 0, 0])).1 = 0 := by
    rw [valueToCustomRangeStep_fst, hm]
    decide
  refine ⟨by decide, by decide, hm, hr, ?_⟩
  rw [hr]
  decide

/-- C7: for every `step ≤ 0` and every `lo`, `hi` and raw input,
`valueToCustomRange(lo, hi, step)` returns exactly what
`valueToCustomRange(lo, hi)` returns on the same board, and leaves the board in
the same state: neither quantization nor clamp is applied. -/
theorem valueToCustomRangeStep_nonpos_step (p : Pot) (hw : Hw) (lo hi step : Int)
    (hstep : step ≤ 0) :
    valueToCustomRangeStep p lo hi step hw = valueToCustomRange p lo hi hw := by
  unfold valueToCustomRangeStep
  simp only [if_neg (not_lt.mpr hstep : ¬ step > 0)]

/-- C7, at concrete inputs: with range `(97, 95)` and five readings of `0` the
steps `0` and `-10` both return the mapped value `97`, which is neither
quantized nor clamped to `95`. -/
theorem valueToCustomRangeStep_nonpos_step_witness :
    ((0 : Int) ≤ 0) ∧ ((-10 : Int) ≤ 0) ∧
    (valueToCustomRangeStep ⟨3, 0, 1023, 1⟩ 97 95 0 (Hw.script [0, 0, 0, 0, 0])).1 = 97 ∧
    (valueToCustomRangeStep ⟨3, 0, 1023, 1⟩ 97 95 (-10) (Hw.script [0, 0, 0, 0, 0])).1 = 97 :=
  ⟨by decide, by decide,
   (congrArg Prod.fst (valueToCustomRangeStep_nonpos_step ⟨3, 0, 1023, 1⟩
      (Hw.script [0, 0, 0, 0, 0]) 97 95 0 (by decide))).trans
      (by rw [valueToCustomRange_fst, input_fst]; decide),
   (congrArg Prod.fst (valueToCustomRangeStep_nonpos_step ⟨3, 0, 1023, 1⟩
      (Hw.script [0, 0, 0, 0, 0]) 97 95 (-10) (by decide))).trans
      (by rw [valueToCustomRange_fst, input_fst]; decide)⟩

/-- C8: for every reader state and every board, `value()` returns what
`valueToCustomRange(vMin, vMax, vStep)` returns with the configuration current
at the call; after `range(a, b)` and `step(s)`, and so after `range(0, 200)`
and `step(25)`, `value()` equals `valueToCustomRange(a, b, s)` on the same raw
input. -/
theorem value_eq_valueToCustomRangeStep (p : Pot) (hw : Hw) :
    value p hw = valueToCustomRangeStep p p.vMin p.vMax p.vStep hw ∧
    (∀ a b s : Int,
      value (step s (range a b p hw).1 (range a b p hw).2).1
          (step s (range a b p hw).1 (range a b p hw).2).2 =
        valueToCustomRangeStep p a b s hw) ∧
    value (step 25 (range 0 200 p hw).1 (range 0 200 p hw).2).1
        (step 25 (range 0 200 p hw).1 (range 0 200 p hw).2).2 =
      valueToCustomRangeStep p 0 200 25 hw :=
  ⟨rfl, fun _ _ _ => rfl, rfl⟩

/-- C9 as stated fails on an inverted range: with `min = 100`, `max = 0` and
five readings of `0` the unquantized method returns `100`, the method with step
`1` returns `0`, and so does `value()` of a reader set to `range(100, 0)` with
the default step. -/
theorem step_one_inverted_range_clamps :
    (∀ r ∈ readings 3 (Hw.script [0, 0, 0, 0, 0]) 5, 0 ≤ r ∧ r ≤ 1023) ∧
    (valueToCustomRange ⟨3, 0, 1023, 1⟩ 100 0 (Hw.script [0, 0, 0, 0, 0])).1 = 100 ∧
    (valueToCustomRangeStep ⟨3, 0, 1023, 1⟩ 100 0 1 (Hw.script [0, 0, 0, 0, 0])).1 = 0 ∧
    (valueToCustomRangeStep ⟨3, 0, 1023, 1⟩ 100 0 1 (Hw.script [0, 0, 0, 0, 0])).1 ≠
      (valueToCustomRange ⟨3, 0, 1023, 1⟩ 100 0 (Hw.script [0, 0, 0, 0, 0])).1 ∧
    (value (range 100 0 (Pot.init 3 (Hw.script [])).1 (Pot.init 3 (Hw.script [])).2).1
      (Hw.script [0, 0, 0, 0, 0])).1 = 0 := by
  have hm : (valueToCustomRange ⟨3, 0, 1023, 1⟩ 100 0 (Hw.script [0, 0, 0, 0, 0])).1 = 100 := by
    rw [valueToCustomRange_fst, input_fst]
    decide
  have hr : (valueToCustomRangeStep ⟨3, 0, 1023, 1⟩ 100 0 1
      (Hw.script [0, 0, 0, 0, 0])).1 = 0 := by
    rw [valueToCustomRangeStep_fst, hm]
    decide
  refine ⟨by decide, hm, hr, ?_, hr⟩
  rw [hm, hr]
  decide

/-- C9, amended: for every raw value in `[0, 1023]`, step `1` is a no-op on
every range with `lo ≤ hi`: `valueToCustomRange(lo, hi, 1)` returns what
`valueToCustomRange(lo, hi)` returns, and `value()` of a reader with step `1`
and `vMin ≤ vMax` is the linear mapping. On a range with `hi < lo` the clamp
applies: `valueToCustomRange(lo, hi, 1)` returns `hi`, and `value()` of a
reader with step `1` and `vMax < vMin` returns `vMax`. -/
theorem step_one_noop_on_ordered_range (p : Pot) (hw : Hw) (lo hi : Int)
    (hv0 : 0 ≤ (input p hw).1) (hv1 : (input p hw).1 ≤ 1023) :
    (lo ≤ hi → valueToCustomRangeStep p lo hi 1 hw = valueToCustomRange p lo hi hw) ∧
    (hi < lo → (valueToCustomRangeStep p lo hi 1 hw).1 = hi) ∧
    (p.vStep = 1 → p.vMin ≤ p.vMax →
      value p hw = valueToCustomRange p p.vMin p.vMax hw) ∧
    (p.vStep = 1 → p.vMax < p.vMin → (value p hw).1 = p.vMax) := by
  have ordered : ∀ a b : Int, a ≤ b →
      valueToCustomRangeStep p a b 1 hw = valueToCustomRange p a b hw := by
    intro a b hab
    refine Prod.ext ?_ (by rw [valueToCustomRangeStep_snd, valueToCustomRange_snd])
    rw [valueToCustomRangeStep_fst, quantize_one, valueToCustomRange_fst]
    have hb := map_bounds (input p hw).1 a b hv0 hv1 hab
    rw [if_neg (not_lt.mpr hb.2)]
  have inverted : ∀ a b : Int, b < a → (valueToCustomRangeStep p a b 1 hw).1 = b := by
    intro a b hab
    rw [valueToCustomRangeStep_fst, quantize_one, valueToCustomRange_fst]
    have hb := map_bounds_inverted (input p hw).1 a b hv0 hv1 hab
    split_ifs <;> omega
  refine ⟨ordered lo hi, inverted lo hi, ?_, ?_⟩
  · intro hs hle
    unfold value
    rw [hs]
    exact ordered _ _ hle
  · intro hs hlt
    unfold value
    rw [hs]
    exact inverted _ _ hlt

/-- C9, amended, at concrete inputs: with five readings of `512` the range
`(0, 100)` gives `50` with step `1`, as without a step, and the range
`(100, 0)` gives `0` with step `1`. -/
theorem step_one_noop_on_ordered_range_witness :
    (0 ≤ (input ⟨3, 0, 1023, 1⟩ (Hw.script [512, 512, 512, 512, 512])).1) ∧
    ((input ⟨3, 0, 1023, 1⟩ (Hw.script [512, 512, 512, 512, 512])).1 ≤ 1023) ∧
    (valueToCustomRangeStep ⟨3, 0, 1023, 1⟩ 0 100 1
      (Hw.script [512, 512, 512, 512, 512])).1 = 50 ∧
    (valueToCustomRangeStep ⟨3, 0, 1023, 1⟩ 100 0 1
      (Hw.script [512, 512, 512, 512, 512])).1 = 0 :=
  ⟨by rw [input_fst]; decide, by rw [input_fst]; decide,
   (congrArg Prod.fst ((step_one_noop_on_ordered_range ⟨3, 0, 1023, 1⟩
      (Hw.script [512, 512, 512, 512, 512]) 0 100
      (by rw [input_fst]; decide) (by rw [input_fst]; decide)).1 (by decide))).trans
      (by rw [valueToCustomRange_fst, input_fst]; decide),
   (step_one_noop_on_ordered_range ⟨3, 0, 1023, 1⟩
      (Hw.script [512, 512, 512, 512, 512]) 100 0
      (by rw [input_fst]; decide) (by rw [input_fst]; decide)).2.1 (by decide)⟩

/-- C10: a reader constructed with only a channel has `vMin = 0`,
`vMax = 1023` and `vStep = 1`, and for every five readings in `[0, 1023]` its
`value()` returns exactly what `input()` returns, and leaves the board in the
same state. -/
theorem default_reader_value_eq_input (pin : Nat) (hw0 hw : Hw)
    (hrange : ∀ r ∈ readings pin hw 5, 0 ≤ r ∧ r ≤ 1023) :
    (Pot.init pin hw0).1.pin = pin ∧
    (Pot.init pin hw0).1.vMin = 0 ∧
    (Pot.init pin hw0).1.vMax = 1023 ∧
    (Pot.init pin hw0).1.vStep = 1 ∧
    value (Pot.init pin hw0).1 hw = input (Pot.init pin hw0).1 hw := by
  refine ⟨rfl, rfl, rfl, rfl, ?_⟩
  have hb := input_fst_bounds (Pot.init pin hw0).1 hw hrange
  show valueToCustomRangeStep (Pot.init pin hw0).1 0 1023 1 hw = _
  refine Prod.ext ?_ (valueToCustomRangeStep_snd _ _ _ _ _)
  rw [valueToCustomRangeStep_fst, quantize_one, valueToCustomRange_fst, Int.sub_zero,
    Int.add_zero, Int.mul_tdiv_cancel _ (by decide), if_neg (not_lt.mpr hb.2)]

/-- C10, at a concrete input: on a fresh board whose converter returns
`0, 1023, 0, 1023, 0`, the reader constructed on channel `3` reads `409`, the
value of `input()`. -/
theorem default_reader_value_eq_input_witness :
    (∀ r ∈ readings 3 (Pot.init 3 (Hw.script [0, 1023, 0, 1023, 0])).2 5, 0 ≤ r ∧ r ≤ 1023) ∧
    (input (Pot.init 3 (Hw.script [0, 1023, 0, 1023, 0])).1
      (Pot.init 3 (Hw.script [0, 1023, 0, 1023, 0])).2).1 = 409 ∧
    (value (Pot.init 3 (Hw.script [0, 1023, 0, 1023, 0])).1
      (Pot.init 3 (Hw.script [0, 1023, 0, 1023, 0])).2).1 = 409 :=
  ⟨by decide, by rw [input_fst]; decide,
   (congrArg Prod.fst (default_reader_value_eq_input 3 (Hw.script [0, 1023, 0, 1023, 0])
      (Pot.init 3 (Hw.script [0, 1023, 0, 1023, 0])).2 (by decide)).2.2.2.2).trans
      (by rw [input_fst]; decide)⟩

/-- C11: for every raw value `v` in `[0, 1023]`, the two-argument
`valueToCustomRange(lo, hi)` returns a value in `[lo, hi]` when `lo ≤ hi` and a
value in `[hi, lo]` when `hi < lo`; in both cases it returns `lo` at raw `0`
and `hi` at raw `1023`. -/
theorem valueToCustomRange_within_range (p : Pot) (hw : Hw) (lo hi v : Int)
    (hv : (input p hw).1 = v) (hv0 : 0 ≤ v) (hv1 : v ≤ 1023) :
    (lo ≤ hi →
      lo ≤ (valueToCustomRange p lo hi hw).1 ∧ (valueToCustomRange p lo hi hw).1 ≤ hi) ∧
    (hi < lo →
      hi ≤ (valueToCustomRange p lo hi hw).1 ∧ (valueToCustomRange p lo hi hw).1 ≤ lo) ∧
    (v = 0 → (valueToCustomRange p lo hi hw).1 = lo) ∧
    (v = 1023 → (valueToCustomRange p lo hi hw).1 = hi) := by
  rw [valueToCustomRange_fst, hv]
  refine ⟨map_bounds v lo hi hv0 hv1, map_bounds_inverted v lo hi hv0 hv1, ?_, ?_⟩
  · intro h0
    rw [h0, Int.zero_mul, Int.zero_tdiv, Int.zero_add]
  · intro h1
    rw [h1, Int.mul_tdiv_cancel_left _ (by decide)]
    omega

/-- C11, at concrete inputs: on the range `(10, 20)` the raw values `0`, `512`
and `1023` give `10`, `15` and `20`; on the inverted range `(20, 10)` they give
`20`, `15` and `10`. -/
theorem valueToCustomRange_within_range_witness :
    ((input ⟨3, 0, 1023, 1⟩ (Hw.script [512, 512, 512, 512, 512])).1 = 512) ∧
    ((0 : Int) ≤ 512) ∧ ((512 : Int) ≤ 1023) ∧
    (10 ≤ (valueToCustomRange ⟨3, 0, 1023, 1⟩ 10 20 (Hw.script [512, 512, 512, 512, 512])).1 ∧
      (valueToCustomRange ⟨3, 0, 1023, 1⟩ 10 20 (Hw.script [512, 512, 512, 512, 512])).1
        ≤ 20) ∧
    (10 ≤ (valueToCustomRange ⟨3, 0, 1023, 1⟩ 20 10 (Hw.script [512, 512, 512, 512, 512])).1 ∧
      (valueToCustomRange ⟨3, 0, 1023, 1⟩ 20 10 (Hw.script [512, 512, 512, 512, 512])).1
        ≤ 20) ∧
    (valueToCustomRange ⟨3, 0, 1023, 1⟩ 10 20 (Hw.script [0, 0, 0, 0, 0])).1 = 10 ∧
    (valueToCustomRange ⟨3, 0, 1023, 1⟩ 20 10 (Hw.script [0, 0, 0, 0, 0])).1 = 20 ∧
    (valueToCustomRange ⟨3, 0, 1023, 1⟩ 10 20
      (Hw.script [1023, 1023, 1023, 1023, 1023])).1 = 20 ∧
    (valueToCustomRange ⟨3, 0, 1023, 1⟩ 20 10
      (Hw.script [1023, 1023, 1023, 1023, 1023])).1 = 10 :=
  ⟨by rw [input_fst]; decide, by decide, by decide,
   (valueToCustomRange_within_range ⟨3, 0, 1023, 1⟩ (Hw.script [512, 512, 512, 512, 512])
      10 20 512 (by rw [input_fst]; decide) (by decide) (by decide)).1 (by decide),
   (valueToCustomRange_within_range ⟨3, 0, 1023, 1⟩ (Hw.script [512, 512, 512, 512, 512])
      20 10 512 (by rw [input_fst]; decide) (by decide) (by decide)).2.1 (by decide),
   (valueToCustomRange_within_range ⟨3, 0, 1023, 1⟩ (Hw.script [0, 0, 0, 0, 0])
      10 20 0 (by rw [input_fst]; decide) (by decide) (by decide)).2.2.1 rfl,
   (valueToCustomRange_within_range ⟨3, 0, 1023, 1⟩ (Hw.script [0, 0, 0, 0, 0])
      20 10 0 (by rw [input_fst]; decide) (by decide) (by decide)).2.2.1 rfl,
   (valueToCustomRange_within_range ⟨3, 0, 1023, 1⟩ (Hw.script [1023, 1023, 1023, 1023, 1023])
      10 20 1023 (by rw [input_fst]; decide) (by decide) (by decide)).2.2.2 rfl,
   (valueToCustomRange_within_range ⟨3, 0, 1023, 1⟩ (Hw.script [1023, 1023, 1023, 1023, 1023])
      20 10 1023 (by rw [input_fst]; decide) (by decide) (by decide)).2.2.2 rfl⟩

/-- C12: for five raw readings `r0 … r4`, each in `[0, 1023]`, the value
returned by `input()` is in `[0, 1023]` and lies between the smallest and the
largest of the five readings. -/
theorem input_within_readings (p : Pot) (hw : Hw) (r0 r1 r2 r3 r4 : Int)
    (hread : readings p.pin hw 5 = [r0, r1, r2, r3, r4])
    (hrange : ∀ r ∈ [r0, r1, r2, r3, r4], 0 ≤ r ∧ r ≤ 1023) :
    0 ≤ (input p hw).1 ∧ (input p hw).1 ≤ 1023 ∧
    min r0 (min r1 (min r2 (min r3 r4))) ≤ (input p hw).1 ∧
    (input p hw).1 ≤ max r0 (max r1 (max r2 (max r3 r4))) := by
  have h0 := hrange r0 (by simp)
  have h1 := hrange r1 (by simp)
  have h2 := hrange r2 (by simp)
  have h3 := hrange r3 (by simp)
  have h4 := hrange r4 (by simp)
  have hs : (readings p.pin hw 5).sum = r0 + r1 + r2 + r3 + r4 := by
    rw [hread]
    simp only [List.sum_cons, List.sum_nil]
    ring
  rw [input_fst, hs, Int.tdiv_eq_ediv (by omega) (by decide)]
  omega

/-- C12, at a concrete input: the readings `7, 1023, 12, 900, 3` give `389`,
which is in `[0, 1023]` and between the smallest reading `3` and the largest
reading `1023`. -/
theorem input_within_readings_witness :
    readings 3 (Hw.script [7, 1023, 12, 900, 3]) 5 = [7, 1023, 12, 900, 3] ∧
    (∀ r ∈ [(7 : Int), 1023, 12, 900, 3], 0 ≤ r ∧ r ≤ 1023) ∧
    (input ⟨3, 0, 1023, 1⟩ (Hw.script [7, 1023, 12, 900, 3])).1 = 389 ∧
    (3 ≤ (input ⟨3, 0, 1023, 1⟩ (Hw.script [7, 1023, 12, 900, 3])).1) ∧
    ((input ⟨3, 0, 1023, 1⟩ (Hw.script [7, 1023, 12, 900, 3])).1 ≤ 1023) :=
  ⟨by decide, by decide, by rw [input_fst]; decide,
   (input_within_readings ⟨3, 0, 1023, 1⟩ (Hw.script [7, 1023, 12, 900, 3])
      7 1023 12 900 3 (by decide) (by decide)).2.2.1,
   (input_within_readings ⟨3, 0, 1023, 1⟩ (Hw.script [7, 1023, 12, 900, 3])
      7 1023 12 900 3 (by decide) (by decide)).2.2.2⟩

/-- C13: `range(a, b)` sets `vMin = a` and `vMax = b` for any integers and
leaves `pin` and `vStep` unchanged; `step(s)` sets `vStep = s` and leaves `pin`,
`vMin` and `vMax` unchanged; neither changes the board: no reading is consumed
and the trace of hardware calls stays as it was. -/
theorem range_step_frame (p : Pot) (hw : Hw) (a b s : Int) :
    (range a b p hw).1 = { pin := p.pin, vMin := a, vMax := b, vStep := p.vStep } ∧
    (range a b p hw).2 = hw ∧
    (range a b p hw).2.trace = hw.trace ∧
    (range a b p hw).2.reads = hw.reads ∧
    (step s p hw).1 = { pin := p.pin, vMin := p.vMin, vMax := p.vMax, vStep := s } ∧
    (step s p hw).2 = hw ∧
    (step s p hw).2.trace = hw.trace ∧
    (step s p hw).2.reads = hw.reads :=
  ⟨rfl, rfl, rfl, rfl, rfl, rfl, rfl, rfl⟩

/-- C14: over exact rational arithmetic, `voltage()` returns `v * 5 / 1023` for
the averaged raw value `v`: exactly `0` for raw `0`, exactly `5` for raw `1023`,
within `0.001` of `2.498` for raw `511`, and a value in `[0, 5]` for every raw
value in `[0, 1023]`; the board is left as `input()` leaves it. -/
theorem voltage_formula (p : Pot) (hw : Hw) (v : Int) (hv : (input p hw).1 = v) :
    (voltage p hw).1 = (v : ℚ) * 5 / 1023 ∧
    (voltage p hw).2 = (input p hw).2 ∧
    (v = 0 → (voltage p hw).1 = 0) ∧
    (v = 1023 → (voltage p hw).1 = 5) ∧
    (v = 511 → |(voltage p hw).1 - 2498 / 1000| < 1 / 1000) ∧
    (0 ≤ v → v ≤ 1023 → 0 ≤ (voltage p hw).1 ∧ (voltage p hw).1 ≤ 5) := by
  have hf : (voltage p hw).1 = (v : ℚ) * 5 / 1023 := by
    unfold voltage
    simp only [hv]
    ring
  rw [hf]
  refine ⟨rfl, rfl, ?_, ?_, ?_, ?_⟩
  · intro h
    rw [h]
    norm_num
  · intro h
    rw [h]
    norm_num
  · intro h
    rw [h, abs_lt]
    constructor <;> norm_num
  · intro h0 h1
    have h0q : (0 : ℚ) ≤ (v : ℚ) := by exact_mod_cast h0
    have h1q : (v : ℚ) ≤ 1023 := by exact_mod_cast h1
    constructor
    · positivity
    · rw [div_le_iff₀ (by norm_num)]
      linarith

/-- C14, at the values of the spec: five readings of `0` give `0` volt, five
readings of `1023` give `5` volt, and five readings of `511` give `2555 / 1023`
volt, about `2.498`. -/
theorem voltage_formula_witness :
    ((input ⟨3, 0, 1023, 1⟩ (Hw.script [511, 511, 511, 511, 511])).1 = 511) ∧
    (voltage ⟨3, 0, 1023, 1⟩ (Hw.script [511, 511, 511, 511, 511])).1 = 2555 / 1023 ∧
    (voltage ⟨3, 0, 1023, 1⟩ (Hw.script [0, 0, 0, 0, 0])).1 = 0 ∧
    (voltage ⟨3, 0, 1023, 1⟩ (Hw.script [1023, 1023, 1023, 1023, 1023])).1 = 5 :=
  ⟨by rw [input_fst]; decide,
   (voltage_formula ⟨3, 0, 1023, 1⟩ (Hw.script [511, 511, 511, 511, 511]) 511
      (by rw [input_fst]; decide)).1.trans (by norm_num),
   (voltage_formula ⟨3, 0, 1023, 1⟩ (Hw.script [0, 0, 0, 0, 0]) 0
      (by rw [input_fst]; decide)).2.2.1 rfl,
   (voltage_formula ⟨3, 0, 1023, 1⟩ (Hw.script [1023, 1023, 1023, 1023, 1023]) 1023
      (by rw [input_fst]; decide)).2.2.2.1 rfl⟩

/-! ## The claims on the quantization -/

end GBALibPotentiometer
